import Mathlib

/-!
Shallow embedding of the two source files of the repository:
`src/RateLimiter.js` (a sliding-window rate limiter) and `src/Room.js`
(room membership and shared cloud variables), together with theorems
settling the specification claims about them.

Conventions of the embedding:
* JavaScript numbers that hold millisecond timestamps are modelled as `Int`;
  counts are modelled as `Nat`.
* A method that mutates `this` is modelled as a function from the receiver
  state to the pair of (result, new state); a `throw` is modelled as an
  `Except.error` result paired with the state at the moment of the throw.
* `Date.now()` is modelled by an explicit `now : Int` argument.
* A JavaScript `Map<string, string>` is modelled as an insertion-ordered
  association list `List (String × String)`; `Map.set`, `Map.has`,
  `Map.get` and `Map.prototype.size` become `mapSet`, `mapHas`, `mapGet`
  and `List.length` (the length equals the JS `size` because `mapSet`
  never duplicates a key).
* A `Client` object is a stable identity (`cid`, standing for the JS object
  reference) together with a `username` field; JS reference equality
  (`Array.prototype.includes` / `indexOf` on objects) becomes decidable
  equality on `Client`, with distinct objects carrying distinct `cid`s.
* `String.prototype.toLowerCase` is modelled as per-character ASCII case
  folding, `toLowerCase`, matching its behaviour on the ASCII usernames
  considered here.
-/

/-- State of `RateLimiter` (src/RateLimiter.js): `maxOperations`,
`timePeriod` in milliseconds, and the `history` array of timestamps of
previous operations, oldest first. -/
structure RateLimiter where
  maxOperations : Nat
  timePeriod : Int
  history : List Int
deriving Repr, DecidableEq

/-- Constructor `new RateLimiter(maxOperations, timePeriod)`: the history
starts empty. -/
def RateLimiter.init (maxOperations : Nat) (timePeriod : Int) : RateLimiter :=
  { maxOperations := maxOperations, timePeriod := timePeriod, history := [] }

/-- Method `rateLimited()` of src/RateLimiter.js, lines 23-34, with
`Date.now()` passed in as `now`.  It pushes `now` onto the history; if the
history now exceeds `maxOperations` entries it shifts off the oldest entry
`period` and reports limited exactly when `now - period < timePeriod`;
otherwise it reports not limited. -/
def RateLimiter.rateLimited (rl : RateLimiter) (now : Int) : Bool × RateLimiter :=
  let history := rl.history ++ [now]
  if history.length > rl.maxOperations then
    let period := history.headD 0
    (decide (now - period < rl.timePeriod), { rl with history := history.tail })
  else
    (false, { rl with history := history })

/-- Iterate `rateLimited` over a list of call times, collecting the returned
booleans and the final limiter state. -/
def RateLimiter.run (rl : RateLimiter) (times : List Int) : List Bool × RateLimiter :=
  match times with
  | [] => ([], rl)
  | t :: ts =>
    let step := rl.rateLimited t
    let rest := step.2.run ts
    (step.1 :: rest.1, rest.2)

/-- ASCII case folding, the model of `String.prototype.toLowerCase` used in
`Room.hasClientWithUsername`. -/
def toLowerCase (s : String) : String := String.mk (s.data.map Char.toLower)

/-- A connected client as seen by `Room`: a stable identity standing for the
JS object reference, and the `username` field the room reads. -/
structure Client where
  cid : Nat
  username : String
deriving Repr, DecidableEq

/-- The errors thrown by `Room` methods (src/Room.js), one constructor per
`throw new Error(...)` site. -/
inductive RoomError where
  | AlreadyMember
  | NotMember
  | InvalidName
  | InvalidValue
  | AlreadyExists
  | NotFound
  | Capacity
deriving Repr, DecidableEq

/-- JS `Map.prototype.has` on the association-list model. -/
def mapHas (m : List (String × String)) (k : String) : Bool :=
  m.any (fun p => p.1 == k)

/-- JS `Map.prototype.set` on the association-list model: overwrite in place
if the key is present, else append at the end (insertion order). -/
def mapSet (m : List (String × String)) (k v : String) : List (String × String) :=
  match m with
  | [] => [(k, v)]
  | p :: rest => if p.1 == k then (k, v) :: rest else p :: mapSet rest k v

/-- JS `Map.prototype.get` on the association-list model. -/
def mapGet (m : List (String × String)) (k : String) : Option String :=
  (m.find? (fun p => p.1 == k)).map Prod.snd

/-- State of `Room` (src/Room.js): id, the variables map, the array of
connected clients, the time of the last client disconnect, and the
variable-count ceiling. -/
structure Room where
  id : String
  variables' : List (String × String)
  clients : List Client
  lastDisconnectTime : Int
  maxVariables : Nat
deriving Repr, DecidableEq

/-- Constructor `new Room(id)` (src/Room.js lines 15-45): empty variables,
no clients, `lastDisconnectTime = -1`, `maxVariables = 10`. -/
def Room.init (id : String) : Room :=
  { id := id
    variables' := []
    clients := []
    lastDisconnectTime := -1
    maxVariables := 10 }

/-- Method `addClient(client)` (src/Room.js lines 52-57): throws
`AlreadyMember` when `clients.includes(client)`, else pushes the client. -/
def Room.addClient (r : Room) (client : Client) : Except RoomError Unit × Room :=
  if r.clients.contains client then
    (.error .AlreadyMember, r)
  else
    (.ok (), { r with clients := r.clients ++ [client] })

/-- Method `removeClient(client)` (src/Room.js lines 64-71): computes
`indexOf(client)`; the JS check `index === -1` becomes
`findIdx (· == client) = clients.length` (both say the client is absent);
otherwise it splices out that one index and sets `lastDisconnectTime` to
`Date.now()`, passed in as `now`. -/
def Room.removeClient (r : Room) (client : Client) (now : Int) : Except RoomError Unit × Room :=
  let index := r.clients.findIdx (· == client)
  if index = r.clients.length then
    (.error .NotMember, r)
  else
    (.ok (), { r with clients := r.clients.eraseIdx index, lastDisconnectTime := now })

/-- Method `getClients()` (src/Room.js lines 77-79). -/
def Room.getClients (r : Room) : List Client := r.clients

/-- Method `getAllVariables()` (src/Room.js lines 85-87). -/
def Room.getAllVariables (r : Room) : List (String × String) := r.variables'

/-- Method `has(name)` (src/Room.js lines 136-138). -/
def Room.has (r : Room) (name : String) : Bool := mapHas r.variables' name

/-- Method `create(name, value)` (src/Room.js lines 96-110), parameterized by
the external validators `vN = validators.isValidVariableName` and
`vV = validators.isValidVariableValue`.  The four checks appear in source
order: name validity, value validity, existence, capacity. -/
def Room.create (vN vV : String → Bool) (r : Room) (name value : String) :
    Except RoomError Unit × Room :=
  if !vN name then (.error .InvalidName, r)
  else if !vV value then (.error .InvalidValue, r)
  else if r.has name then (.error .AlreadyExists, r)
  else if r.variables'.length ≥ r.maxVariables then (.error .Capacity, r)
  else (.ok (), { r with variables' := mapSet r.variables' name value })

/-- Method `set(name, value)` (src/Room.js lines 119-130), parameterized by
the same external validators as `create`. -/
def Room.set (vN vV : String → Bool) (r : Room) (name value : String) :
    Except RoomError Unit × Room :=
  if !vN name then (.error .InvalidName, r)
  else if !vV value then (.error .InvalidValue, r)
  else if !r.has name then (.error .NotFound, r)
  else (.ok (), { r with variables' := mapSet r.variables' name value })

/-- Method `hasClientWithUsername(username)` (src/Room.js lines 145-149):
case-insensitive search over the connected clients' usernames. -/
def Room.hasClientWithUsername (r : Room) (username : String) : Bool :=
  let u := toLowerCase username
  r.getClients.any (fun i => toLowerCase i.username == u)

/-- Method `matchesVariableList(variables)` (src/Room.js lines 157-167):
false when the lengths differ, false when some stored variable name is
missing from the given list (`indexOf === -1`), else true. -/
def Room.matchesVariableList (r : Room) (variables' : List String) : Bool :=
  if variables'.length ≠ r.variables'.length then
    false
  else
    (r.getAllVariables.map Prod.fst).all (fun variableName => variables'.contains variableName)

/-- Method-call view of `has`: the call returns its boolean and leaves the
receiver exactly as the method body (which assigns no field) leaves it. -/
def Room.hasS (r : Room) (name : String) : Bool × Room := (r.has name, r)

/-- Method-call view of `hasClientWithUsername`; the body assigns no field
of `this` (it only rebinds its local parameter). -/
def Room.hasClientWithUsernameS (r : Room) (username : String) : Bool × Room :=
  (r.hasClientWithUsername username, r)

/-- Method-call view of `matchesVariableList`; the body assigns no field. -/
def Room.matchesVariableListS (r : Room) (variables' : List String) : (Bool × Room) :=
  (r.matchesVariableList variables', r)

/-- Method-call view of `getClients`; the body assigns no field. -/
def Room.getClientsS (r : Room) : List Client × Room := (r.getClients, r)

/-- Method-call view of `getAllVariables`; the body assigns no field. -/
def Room.getAllVariablesS (r : Room) : List (String × String) × Room := (r.getAllVariables, r)

/-- The invariant stated by the spec for room membership: no two distinct
connected clients report the same username under case-insensitive
comparison. -/
def Room.usernamesUnique (r : Room) : Prop :=
  r.clients.Pairwise (fun a b => toLowerCase a.username ≠ toLowerCase b.username)

/-- A call that finds the history strictly below capacity only appends the
call time and reports not limited. -/
theorem RateLimiter.rateLimited_not_full (rl : RateLimiter) (now : Int)
    (h : rl.history.length < rl.maxOperations) :
    rl.rateLimited now = (false, { rl with history := rl.history ++ [now] }) := by
  unfold RateLimiter.rateLimited
  rw [if_neg]
  simp only [List.length_append, List.length_cons, List.length_nil]
  omega

/-- Running `k` calls at the one instant `t0` on a limiter whose history is
`m` copies of `t0`, with `m + k` within capacity, reports not limited each
time and leaves `m + k` copies of `t0`. -/
theorem RateLimiter.run_replicate (N : Nat) (T t0 : Int) (k m : Nat) (h : m + k ≤ N) :
    RateLimiter.run ⟨N, T, List.replicate m t0⟩ (List.replicate k t0) =
      (List.replicate k false, ⟨N, T, List.replicate (m + k) t0⟩) := by
  induction k generalizing m with
  | zero => simp [RateLimiter.run]
  | succ k ih =>
    rw [List.replicate_succ]
    unfold RateLimiter.run
    rw [RateLimiter.rateLimited_not_full _ _ (by simp; omega)]
    have harr : List.replicate m t0 ++ [t0] = List.replicate (m + 1) t0 :=
      (List.replicate_succ' ..).symm
    simp only [harr]
    rw [ih (m + 1) (by omega)]
    have : m + 1 + k = m + (k + 1) := by omega
    rw [this]
    simp [List.replicate_succ]

/-- C1: for a limiter with `maxOperations = N ≥ 1` and `timePeriod = T > 0`,
starting from an empty history, `N` calls at one instant all report not
limited; the `(N+1)`-th call `d` milliseconds after the first reports
limited exactly when `d < T` (so: limited when `d < T`, not limited when
`d ≥ T`); and the spec scenario `N = 2, T = 1000` with calls at
`0, 100, 200, 1300` reports `false, false, true, false`. -/
theorem rateLimiter_window_boundary (N : Nat) (T t0 d : Int) (hN : 1 ≤ N) (hT : 0 < T) :
    (RateLimiter.run ⟨N, T, []⟩ (List.replicate N t0)).1 = List.replicate N false ∧
    ((RateLimiter.run ⟨N, T, []⟩ (List.replicate N t0)).2.rateLimited (t0 + d)).1
      = decide (d < T) ∧
    (RateLimiter.run ⟨2, 1000, []⟩ [0, 100, 200, 1300]).1 = [false, false, true, false] := by
  have hrun := RateLimiter.run_replicate N T t0 N 0 (by omega)
  simp only [List.replicate_zero] at hrun
  refine ⟨by rw [hrun], ?_, by decide⟩
  rw [hrun]
  obtain ⟨M, rfl⟩ : ∃ M, N = M + 1 := ⟨N - 1, by omega⟩
  unfold RateLimiter.rateLimited
  rw [if_pos (by simp)]
  simp only [Nat.zero_add, List.replicate_succ, List.cons_append, List.headD_cons]
  have hd : t0 + d - t0 = d := by omega
  rw [hd]

/-- C1 witness: the theorem applied at `N = 2`, `T = 1000`, `t0 = 0`,
`d = 200`. -/
theorem rateLimiter_window_boundary_witness :
    (RateLimiter.run ⟨2, 1000, []⟩ (List.replicate 2 0)).1 = List.replicate 2 false ∧
    ((RateLimiter.run ⟨2, 1000, []⟩ (List.replicate 2 0)).2.rateLimited (0 + 200)).1
      = decide ((200 : Int) < 1000) ∧
    (RateLimiter.run ⟨2, 1000, []⟩ [0, 100, 200, 1300]).1 = [false, false, true, false] :=
  rateLimiter_window_boundary 2 1000 0 200 (by decide) (by decide)

/-- C4: a limiter whose history is full (`history.length = maxOperations`,
oldest entry `p` at the front) reports not limited on a call made at any
time `now` with `now - p ≥ timePeriod`: there is no permanent lockout. -/
theorem rateLimiter_no_lockout (rl : RateLimiter) (now p : Int) (rest : List Int)
    (hhist : rl.history = p :: rest)
    (hlen : rl.history.length = rl.maxOperations)
    (hwait : rl.timePeriod ≤ now - p) :
    (rl.rateLimited now).1 = false := by
  unfold RateLimiter.rateLimited
  rw [if_pos (by simp only [List.length_append, List.length_cons, List.length_nil]; omega)]
  simp only [hhist, List.cons_append, List.headD_cons, decide_eq_false_iff_not, not_lt]
  omega

/-- C4 witness: the theorem applied to the limiter `⟨1, 5, [0]⟩` at time 5. -/
theorem rateLimiter_no_lockout_witness :
    ((⟨1, 5, [0]⟩ : RateLimiter).rateLimited 5).1 = false :=
  rateLimiter_no_lockout ⟨1, 5, [0]⟩ 5 0 [] rfl rfl (by decide)

/-- C5: one `rateLimited` call preserves the history invariant: if the
history holds at most `maxOperations` entries, is sorted oldest-first, and
all entries precede the call time `now` (the clock is non-decreasing), then
after the call the history again holds at most `maxOperations` entries, is
sorted, and all entries are at most `now`. -/
theorem rateLimiter_history_invariant (rl : RateLimiter) (now : Int)
    (hlen : rl.history.length ≤ rl.maxOperations)
    (hsort : rl.history.Sorted (· ≤ ·))
    (hmono : ∀ x ∈ rl.history, x ≤ now) :
    (rl.rateLimited now).2.history.length ≤ rl.maxOperations ∧
    (rl.rateLimited now).2.history.Sorted (· ≤ ·) ∧
    ∀ x ∈ (rl.rateLimited now).2.history, x ≤ now := by
  have hsort' : (rl.history ++ [now]).Sorted (· ≤ ·) := by
    rw [List.Sorted, List.pairwise_append]
    refine ⟨hsort, by simp, fun a ha b hb => ?_⟩
    rw [List.mem_singleton] at hb
    exact hb ▸ hmono a ha
  have hmono' : ∀ x ∈ rl.history ++ [now], x ≤ now := by
    intro x hx
    rcases List.mem_append.mp hx with h | h
    · exact hmono x h
    · rw [List.mem_singleton] at h
      omega
  unfold RateLimiter.rateLimited
  by_cases hc : (rl.history ++ [now]).length > rl.maxOperations
  · rw [if_pos hc]
    refine ⟨?_, hsort'.tail, ?_⟩
    · simp only [List.length_tail, List.length_append, List.length_cons, List.length_nil]
      omega
    · intro x hx
      exact hmono' x (List.mem_of_mem_tail hx)
  · rw [if_neg hc]
    refine ⟨?_, hsort', hmono'⟩
    simp only [List.length_append, List.length_cons, List.length_nil] at hc ⊢
    omega

/-- C5 witness: the theorem applied to the limiter `⟨2, 10, [1]⟩` at time 3. -/
theorem rateLimiter_history_invariant_witness :
    ((⟨2, 10, [1]⟩ : RateLimiter).rateLimited 3).2.history.length ≤ 2 ∧
    ((⟨2, 10, [1]⟩ : RateLimiter).rateLimited 3).2.history.Sorted (· ≤ ·) ∧
    ∀ x ∈ ((⟨2, 10, [1]⟩ : RateLimiter).rateLimited 3).2.history, x ≤ 3 :=
  rateLimiter_history_invariant ⟨2, 10, [1]⟩ 3 (by decide) (by simp) (by decide)

/-- C9: a limiter constructed with `maxOperations = 0` and `timePeriod > 0`
reports limited on every call — each call pushes the call time, immediately
evicts it again (the history returns to empty), and the age of the evicted
just-recorded timestamp is `0 < timePeriod`. -/
theorem rateLimiter_zero_capacity (T : Int) (hT : 0 < T) (times : List Int) :
    (RateLimiter.run ⟨0, T, []⟩ times).1 = List.replicate times.length true ∧
    (RateLimiter.run ⟨0, T, []⟩ times).2.history = [] := by
  induction times with
  | nil => simp [RateLimiter.run]
  | cons t ts ih =>
    have hstep : RateLimiter.rateLimited ⟨0, T, []⟩ t = (true, ⟨0, T, []⟩) := by
      unfold RateLimiter.rateLimited
      rw [if_pos (by simp)]
      simp only [List.nil_append, List.headD_cons, List.tail_cons]
      rw [decide_eq_true_eq.mpr (by omega)]
    unfold RateLimiter.run
    simp only [hstep, List.length_cons, List.replicate_succ]
    exact ⟨by rw [ih.1], ih.2⟩

/-- C9 witness: the theorem applied at `T = 1000` with calls at 0 and 5. -/
theorem rateLimiter_zero_capacity_witness :
    (RateLimiter.run ⟨0, 1000, []⟩ [0, 5]).1 = [true, true] ∧
    (RateLimiter.run ⟨0, 1000, []⟩ [0, 5]).2.history = [] :=
  rateLimiter_zero_capacity 1000 (by decide) [0, 5]

/-- After `mapSet m k v` the key `k` is present. -/
theorem mapHas_mapSet_self (m : List (String × String)) (k v : String) :
    mapHas (mapSet m k v) k = true := by
  induction m with
  | nil => simp [mapSet, mapHas]
  | cons p rest ih =>
    by_cases h : p.1 == k
    · simp [mapSet, h, mapHas]
    · simp only [mapSet, h, Bool.false_eq_true, if_false, mapHas, List.any_cons] at ih ⊢
      simp [ih]

/-- After `mapSet m k v` the key `k` is bound to `v`. -/
theorem mapGet_mapSet_self (m : List (String × String)) (k v : String) :
    mapGet (mapSet m k v) k = some v := by
  induction m with
  | nil => simp [mapSet, mapGet]
  | cons p rest ih =>
    by_cases h : p.1 == k
    · simp [mapSet, h, mapGet]
    · simp only [mapSet, h, Bool.false_eq_true, if_false, mapGet, List.find?_cons, h] at ih ⊢
      exact ih

/-- C3: `create` applies its four checks in source order — invalid name,
then invalid value, then existing variable, then capacity — throwing
`InvalidName`, `InvalidValue`, `AlreadyExists`, `Capacity` respectively
with the variables map unchanged, and on success inserts `(name, value)`
so that `has name` is afterwards true. -/
theorem room_create_spec (vN vV : String → Bool) (r : Room) (name value : String) :
    (vN name = false → r.create vN vV name value = (.error .InvalidName, r)) ∧
    (vN name = true → vV value = false →
      r.create vN vV name value = (.error .InvalidValue, r)) ∧
    (vN name = true → vV value = true → r.has name = true →
      r.create vN vV name value = (.error .AlreadyExists, r)) ∧
    (vN name = true → vV value = true → r.has name = false →
      r.maxVariables ≤ r.variables'.length →
      r.create vN vV name value = (.error .Capacity, r)) ∧
    (vN name = true → vV value = true → r.has name = false →
      r.variables'.length < r.maxVariables →
      r.create vN vV name value
          = (.ok (), { r with variables' := mapSet r.variables' name value }) ∧
      (r.create vN vV name value).2.has name = true) := by
  unfold Room.create
  refine ⟨fun h1 => by simp [h1],
    fun h1 h2 => by simp [h1, h2],
    fun h1 h2 h3 => by simp [h1, h2, h3],
    fun h1 h2 h3 h4 => by simp [h1, h2, h3, h4],
    fun h1 h2 h3 h4 => ?_⟩
  have h5 : ¬ r.variables'.length ≥ r.maxVariables := by omega
  refine ⟨by simp [h1, h2, h3, h5], ?_⟩
  simp only [h1, h2, h3, h5, Bool.not_true, Bool.false_eq_true, if_false, ge_iff_le]
  simp [Room.has, mapHas_mapSet_self]

/-- C3 witness: the theorem applied to a fresh room with trivially true
validators, creating variable `x`. -/
theorem room_create_spec_witness :
    (Room.init "w3").create (fun _ => true) (fun _ => true) "x" "1"
        = (.ok (), { Room.init "w3" with
             variables' := mapSet ((Room.init "w3").variables') "x" "1" }) ∧
    ((Room.init "w3").create (fun _ => true) (fun _ => true) "x" "1").2.has "x" = true :=
  (room_create_spec (fun _ => true) (fun _ => true) (Room.init "w3") "x" "1").2.2.2.2
    rfl rfl (by decide) (by decide)

/-- C7: `set` applies the same name and value validators as `create`, then
throws `NotFound` when the variable is absent, in each case leaving the
variables map unchanged; on success it overwrites the value, which is then
visible through `getAllVariables`. -/
theorem room_set_spec (vN vV : String → Bool) (r : Room) (name value : String) :
    (vN name = false → r.set vN vV name value = (.error .InvalidName, r)) ∧
    (vN name = true → vV value = false →
      r.set vN vV name value = (.error .InvalidValue, r)) ∧
    (vN name = true → vV value = true → r.has name = false →
      r.set vN vV name value = (.error .NotFound, r)) ∧
    (vN name = true → vV value = true → r.has name = true →
      r.set vN vV name value
          = (.ok (), { r with variables' := mapSet r.variables' name value }) ∧
      mapGet (r.set vN vV name value).2.getAllVariables name = some value) := by
  unfold Room.set
  refine ⟨fun h1 => by simp [h1],
    fun h1 h2 => by simp [h1, h2],
    fun h1 h2 h3 => by simp [h1, h2, h3],
    fun h1 h2 h3 => ?_⟩
  refine ⟨by simp [h1, h2, h3], ?_⟩
  simp only [h1, h2, h3, Bool.not_true, Bool.false_eq_true, if_false]
  simp [Room.getAllVariables, mapGet_mapSet_self]

/-- C7 witness: the theorem applied to a room holding `x = "0"`, setting
`x` to `"1"` with trivially true validators. -/
theorem room_set_spec_witness :
    ({ Room.init "w7" with variables' := [("x", "0")] } : Room).set
        (fun _ => true) (fun _ => true) "x" "1"
      = (.ok (), { ({ Room.init "w7" with variables' := [("x", "0")] } : Room) with
           variables' := mapSet [("x", "0")] "x" "1" }) ∧
    mapGet (({ Room.init "w7" with variables' := [("x", "0")] } : Room).set
        (fun _ => true) (fun _ => true) "x" "1").2.getAllVariables "x" = some "1" :=
  (room_set_spec (fun _ => true) (fun _ => true)
    { Room.init "w7" with variables' := [("x", "0")] } "x" "1").2.2.2
    rfl rfl (by decide)

/-- Splicing out the found index of a member of a duplicate-free list
removes that member. -/
theorem not_mem_eraseIdx_findIdx {l : List Client} {c : Client}
    (hnd : l.Nodup) (hmem : c ∈ l) :
    c ∉ l.eraseIdx (l.findIdx (· == c)) := by
  induction l with
  | nil => simp at hmem
  | cons a t ih =>
    rw [List.findIdx_cons]
    rw [List.nodup_cons] at hnd
    by_cases h : a == c
    · have hac : a = c := by simpa using h
      simp only [h, cond_true, List.eraseIdx_cons_zero]
      exact hac ▸ hnd.1
    · have hac : ¬ a = c := by simpa using h
      have hct : c ∈ t := by
        rcases List.mem_cons.mp hmem with h' | h'
        · exact absurd h'.symm hac
        · exact h'
      simp only [h, cond_false, List.eraseIdx_cons_succ, List.mem_cons, not_or]
      exact ⟨fun hc => hac hc.symm, ih hnd.2 hct⟩

/-- C6: `addClient` throws `AlreadyMember` exactly when the client is
already present and otherwise appends it; `removeClient` throws `NotMember`
exactly when the client is absent and otherwise removes it (the membership
list being duplicate-free) and sets `lastDisconnectTime` to the current
time, which is at least any time observed before the call; each failure
leaves the room, in particular `clients` and `lastDisconnectTime`,
unchanged. -/
theorem room_membership_spec (r : Room) (c : Client) (now tBefore : Int)
    (hnodup : r.clients.Nodup) (htime : tBefore ≤ now) :
    (c ∈ r.clients → r.addClient c = (.error .AlreadyMember, r)) ∧
    (c ∉ r.clients → r.addClient c = (.ok (), { r with clients := r.clients ++ [c] })) ∧
    (c ∉ r.clients → r.removeClient c now = (.error .NotMember, r)) ∧
    (c ∈ r.clients →
      (r.removeClient c now).1 = .ok () ∧
      c ∉ (r.removeClient c now).2.clients ∧
      (r.removeClient c now).2.lastDisconnectTime = now ∧
      tBefore ≤ (r.removeClient c now).2.lastDisconnectTime) := by
  refine ⟨fun hmem => ?_, fun hmem => ?_, fun hmem => ?_, fun hmem => ?_⟩
  · simp [Room.addClient, List.contains, List.elem_iff, hmem]
  · simp [Room.addClient, List.contains, List.elem_iff, hmem]
  · have hidx : r.clients.findIdx (· == c) = r.clients.length := by
      rw [List.findIdx_eq_length]
      intro x hx
      by_cases hxc : x == c
      · exact absurd ((by simpa using hxc : x = c) ▸ hx) hmem
      · simpa using hxc
    simp [Room.removeClient, hidx]
  · have hidx : r.clients.findIdx (· == c) < r.clients.length := by
      rw [List.findIdx_lt_length]
      exact ⟨c, hmem, by simp⟩
    have hne : ¬ r.clients.findIdx (· == c) = r.clients.length := by omega
    simp only [Room.removeClient, hne, if_false]
    exact ⟨trivial, not_mem_eraseIdx_findIdx hnodup hmem, trivial, htime⟩

/-- C6 witness: the theorem applied to a room whose single client is then
removed at time 5, observed from time 4. -/
theorem room_membership_spec_witness :
    (({ Room.init "w6" with clients := [⟨0, "alice"⟩] } : Room).removeClient ⟨0, "alice"⟩ 5).1
        = .ok () ∧
    (⟨0, "alice"⟩ : Client) ∉
      (({ Room.init "w6" with clients := [⟨0, "alice"⟩] } : Room).removeClient
          ⟨0, "alice"⟩ 5).2.clients ∧
    (({ Room.init "w6" with clients := [⟨0, "alice"⟩] } : Room).removeClient
        ⟨0, "alice"⟩ 5).2.lastDisconnectTime = 5 ∧
    (4 : Int) ≤ (({ Room.init "w6" with clients := [⟨0, "alice"⟩] } : Room).removeClient
        ⟨0, "alice"⟩ 5).2.lastDisconnectTime :=
  (room_membership_spec { Room.init "w6" with clients := [⟨0, "alice"⟩] } ⟨0, "alice"⟩ 5 4
    (by simp) (by decide)).2.2.2 (by simp)

/-- C8: for a duplicate-free list of names, `matchesVariableList` returns
true exactly when the given names and the stored variable names are equal
as sets under case-sensitive comparison, irrespective of order (the stored
names being duplicate-free, as JS `Map` keys are). -/
theorem room_matchesVariableList_spec (r : Room) (names : List String)
    (hnames : names.Nodup) (hkeys : (r.variables'.map Prod.fst).Nodup) :
    r.matchesVariableList names = true ↔
      ∀ s, s ∈ names ↔ s ∈ r.variables'.map Prod.fst := by
  unfold Room.matchesVariableList Room.getAllVariables
  constructor
  · intro h
    by_cases hl : names.length ≠ r.variables'.length
    · rw [if_pos hl] at h
      exact absurd h (by simp)
    · rw [if_neg hl] at h
      push_neg at hl
      rw [List.all_eq_true] at h
      have hsub : (r.variables'.map Prod.fst) ⊆ names := by
        intro k hk
        have hc := h k hk
        rw [List.contains, List.elem_iff] at hc
        exact hc
      have hperm : (r.variables'.map Prod.fst).Perm names :=
        (hkeys.subperm hsub).perm_of_length_le
          (by rw [List.length_map]; omega)
      intro s
      exact (hperm.mem_iff).symm
  · intro h
    have hperm : names.Perm (r.variables'.map Prod.fst) :=
      (List.perm_ext_iff_of_nodup hnames hkeys).mpr h
    have hlen : names.length = r.variables'.length := by
      rw [hperm.length_eq, List.length_map]
    rw [if_neg (by omega), List.all_eq_true]
    intro k hk
    rw [List.contains, List.elem_iff]
    exact hperm.mem_iff.mpr hk

/-- C8 witness: the theorem applied to a room storing `x` and `y`, matched
against the list `y, x`, whose match succeeds. -/
theorem room_matchesVariableList_spec_witness :
    ({ Room.init "w8" with variables' := [("x", "1"), ("y", "2")] } : Room).matchesVariableList
      ["y", "x"] = true :=
  (room_matchesVariableList_spec
      { Room.init "w8" with variables' := [("x", "1"), ("y", "2")] } ["y", "x"]
      (by simp) (by simp)).mpr
    (by intro s; constructor <;> (intro h; simp at h ⊢; tauto))

/-- C2 counterexample: starting from a fresh room, `addClient` accepts two
distinct clients whose usernames `alice` and `Alice` coincide under
case-insensitive comparison, so the room then violates the claimed
username-uniqueness invariant — `addClient` checks only reference
membership, never usernames. -/
theorem room_username_uniqueness_counterexample :
    ((Room.init "r2").addClient ⟨0, "alice"⟩).1 = .ok () ∧
    ((((Room.init "r2").addClient ⟨0, "alice"⟩).2).addClient ⟨1, "Alice"⟩).1 = .ok () ∧
    (⟨0, "alice"⟩ : Client) ≠ (⟨1, "Alice"⟩ : Client) ∧
    (⟨0, "alice"⟩ : Client) ∈
      ((((Room.init "r2").addClient ⟨0, "alice"⟩).2).addClient ⟨1, "Alice"⟩).2.clients ∧
    (⟨1, "Alice"⟩ : Client) ∈
      ((((Room.init "r2").addClient ⟨0, "alice"⟩).2).addClient ⟨1, "Alice"⟩).2.clients ∧
    toLowerCase (⟨0, "alice"⟩ : Client).username
      = toLowerCase (⟨1, "Alice"⟩ : Client).username ∧
    ¬ ((((Room.init "r2").addClient ⟨0, "alice"⟩).2).addClient ⟨1, "Alice"⟩).2.usernamesUnique := by
  have h2 : ((((Room.init "r2").addClient ⟨0, "alice"⟩).2).addClient ⟨1, "Alice"⟩).2.clients
      = [⟨0, "alice"⟩, ⟨1, "Alice"⟩] := by decide
  refine ⟨rfl, rfl, by decide, ?_, ?_, by decide, ?_⟩
  · rw [h2]; simp
  · rw [h2]; simp
  · intro h
    rw [Room.usernamesUnique, h2] at h
    rcases List.pairwise_cons.mp h with ⟨hhead, _⟩
    exact hhead ⟨1, "Alice"⟩ (by simp) (by decide)

/-- C2 (amended): `addClient` alone does not enforce username uniqueness;
the invariant is preserved exactly when the caller guards each `addClient`
with `hasClientWithUsername`: if the room satisfies the invariant and no
connected client already carries the new client's username
(case-insensitively), then `addClient` succeeds and the invariant still
holds afterwards. -/
theorem room_username_uniqueness_guarded (r : Room) (c : Client)
    (hinv : r.usernamesUnique)
    (hfree : r.hasClientWithUsername c.username = false) :
    (r.addClient c).1 = .ok () ∧ (r.addClient c).2.usernamesUnique := by
  have hany : ∀ a ∈ r.clients, (toLowerCase a.username == toLowerCase c.username) = false := by
    intro a ha
    by_contra hne
    have : r.hasClientWithUsername c.username = true := by
      unfold Room.hasClientWithUsername Room.getClients
      rw [List.any_eq_true]
      exact ⟨a, ha, by simpa using hne⟩
    rw [this] at hfree
    cases hfree
  have hnotmem : ¬ r.clients.contains c = true := by
    rw [List.contains, List.elem_iff]
    intro hc
    have := hany c hc
    simp at this
  unfold Room.addClient
  rw [if_neg hnotmem]
  refine ⟨rfl, ?_⟩
  rw [Room.usernamesUnique] at hinv ⊢
  rw [List.pairwise_append]
  refine ⟨hinv, by simp, fun a ha b hb => ?_⟩
  rw [List.mem_singleton] at hb
  subst hb
  intro heq
  have := hany a ha
  rw [heq] at this
  simp at this

/-- C2 (amended) witness: the theorem applied to a fresh room and the
client `alice`. -/
theorem room_username_uniqueness_guarded_witness :
    ((Room.init "w2").addClient ⟨0, "alice"⟩).1 = .ok () ∧
    ((Room.init "w2").addClient ⟨0, "alice"⟩).2.usernamesUnique :=
  room_username_uniqueness_guarded (Room.init "w2") ⟨0, "alice"⟩
    List.Pairwise.nil (by decide)

/-- C10: frame separation — `create` and `set` leave `id`, `clients` and
`lastDisconnectTime` untouched on every path; `addClient` leaves `id`,
`variables` and `lastDisconnectTime` untouched; `removeClient` leaves `id`
and `variables` untouched; and the query methods `has`,
`hasClientWithUsername`, `matchesVariableList`, `getClients` and
`getAllVariables` leave the whole room untouched. -/
theorem room_frame_conditions (vN vV : String → Bool) (r : Room)
    (name value : String) (c : Client) (now : Int)
    (names : List String) (username : String) :
    ((r.create vN vV name value).2.id = r.id ∧
     (r.create vN vV name value).2.clients = r.clients ∧
     (r.create vN vV name value).2.lastDisconnectTime = r.lastDisconnectTime) ∧
    ((r.set vN vV name value).2.id = r.id ∧
     (r.set vN vV name value).2.clients = r.clients ∧
     (r.set vN vV name value).2.lastDisconnectTime = r.lastDisconnectTime) ∧
    ((r.addClient c).2.id = r.id ∧
     (r.addClient c).2.variables' = r.variables' ∧
     (r.addClient c).2.lastDisconnectTime = r.lastDisconnectTime) ∧
    ((r.removeClient c now).2.id = r.id ∧
     (r.removeClient c now).2.variables' = r.variables') ∧
    (r.hasS name).2 = r ∧
    (r.hasClientWithUsernameS username).2 = r ∧
    (r.matchesVariableListS names).2 = r ∧
    r.getClientsS.2 = r ∧
    r.getAllVariablesS.2 = r := by
  refine ⟨?_, ?_, ?_, ?_, rfl, rfl, rfl, rfl, rfl⟩
  · unfold Room.create
    repeat' split
    all_goals exact ⟨rfl, rfl, rfl⟩
  · unfold Room.set
    repeat' split
    all_goals exact ⟨rfl, rfl, rfl⟩
  · unfold Room.addClient
    split
    all_goals exact ⟨rfl, rfl, rfl⟩
  · unfold Room.removeClient
    by_cases h : List.findIdx (fun x => x == c) r.clients = r.clients.length
    · simp only [h, if_true]
      exact ⟨trivial, trivial⟩
    · simp only [h, if_false]
      exact ⟨trivial, trivial⟩
